import Mathlib

/-!
Verification of the syncthing Model core (internal/model/model.go).

The file shallowly embeds the Model's data and operations.  The Model's
collaborators (the files.Set index store, the lamport clock, the ignore
matcher, the protocol package) are not part of the source tree; where their
behaviour matters they are modelled from the specification, and each such
definition carries a doc comment starting with Modelled from the spec.
Machine integers are modelled as Nat/Int; overflow is irrelevant to the
properties proved here (all quantities are counters and sizes far below
2^63 in every scenario considered).
-/

namespace Syncthing

/-- Node identity.  The real NodeID is an opaque 32-byte value; the claims
need only decidable equality, so naturals stand in for it. -/
abbrev NodeID := Nat

abbrev RepoID := String

/-- Modelled from the spec: protocol.LocalNodeID, the reserved identity
denoting this node. -/
def LocalNodeID : NodeID := 0

/-- Modelled from the spec: the Deleted bit of protocol FileInfo.Flags. -/
def FlagDeleted : Nat := 4096

/-- Modelled from the spec: the Invalid bit of protocol FileInfo.Flags. -/
def FlagInvalid : Nat := 8192

/-- Modelled from the spec: the Directory bit of protocol FileInfo.Flags. -/
def FlagDirectory : Nat := 16384

/-- Modelled from the spec: the Introducer bit of protocol node flags. -/
def FlagIntroducer : Nat := 2

/-- Modelled from the spec: protocol.IsDeleted, testing the Deleted bit. -/
def IsDeleted (flags : Nat) : Bool := flags &&& FlagDeleted != 0

/-- Modelled from the spec: protocol.IsInvalid, testing the Invalid bit. -/
def IsInvalid (flags : Nat) : Bool := flags &&& FlagInvalid != 0

/-- Modelled from the spec: protocol.BlockInfo with offset, size and hash. -/
structure BlockInfo where
  offset : Int
  size : Nat
  hash : List Nat
deriving DecidableEq

/-- Modelled from the spec: protocol.FileInfo, the unit of index exchange. -/
structure FileInfo where
  name : String
  flags : Nat
  modified : Int
  version : Nat
  localVersion : Nat
  blocks : List BlockInfo
deriving DecidableEq

/-- The zero value of FileInfo, as returned by a map lookup miss in Go. -/
def emptyFileInfo : FileInfo :=
  { name := "", flags := 0, modified := 0, version := 0, localVersion := 0, blocks := [] }

/-- Modelled from the spec: protocol FileInfo.Size, the byte size of the
file, the sum of its block sizes (blocks cover the file's bytes). -/
def FileInfo.size (f : FileInfo) : Int :=
  (f.blocks.map fun b => (b.size : Int)).sum

/-- Strip the replica-assigned localVersion from an entry, for comparing an
entry set independently of sequence-number assignment. -/
def eraseLocalVersion (f : FileInfo) : FileInfo :=
  { f with localVersion := 0 }

/-- Modelled from the spec: lamport.Clock.Tick, the logical clock advance
tick(observed) = max(local, observed) + 1; the result is both the new clock
value and the stamped version. -/
def Lamport.tick (clock observed : Nat) : Nat :=
  Nat.max clock observed + 1

/-- Modelled from the spec: ignore.Patterns with its Match method.  The
pattern language itself is external; only the induced name predicate
matters here. -/
structure Patterns where
  Match : String → Bool

/-- One entry of config.Nodes: node id and its Introducer flag. -/
structure CfgNode where
  id : NodeID
  introducer : Bool
deriving DecidableEq

/-- A node entry of a ClusterConfig repository announcement. -/
structure CCNode where
  id : NodeID
  introducer : Bool
deriving DecidableEq

/-- A repository entry of a ClusterConfig message. -/
structure CCRepo where
  id : RepoID
  nodes : List CCNode
deriving DecidableEq

/-- protocol.ClusterConfigMessage, restricted to the fields the Model's
introducer handling reads. -/
structure ClusterConfigMessage where
  repositories : List CCRepo
deriving DecidableEq

/-- config.RepositoryConfiguration, restricted to the fields AddRepo reads. -/
structure RepositoryConfiguration where
  id : RepoID
  directory : String
  nodes : List NodeID
deriving DecidableEq

/-- Modelled from the spec: localVersion assignment on insert; each inserted
FileInfo receives the next localVersion for the replica. -/
def assignLocalVers (base : Nat) : List FileInfo → List FileInfo
  | [] => []
  | f :: rest => { f with localVersion := base + 1 } :: assignLocalVers (base + 1) rest

/-- Modelled from the spec: files.Set, one per repository.  The replica map
and watermark are held directly; the derived global and need views are held
as the snapshots the WithGlobal/WithNeed traversals deliver (they are
recomputed by the external store on every write and only read here). -/
structure SetState where
  replica : NodeID → List FileInfo
  localVer : NodeID → Nat
  globalView : List FileInfo
  needView : NodeID → List FileInfo

def emptySetState : SetState :=
  { replica := fun _ => [], localVer := fun _ => 0,
    globalView := [], needView := fun _ => [] }

/-- Modelled from the spec: files.Set.Get returns the replica's current
entry for the name, or a zero-value FileInfo if absent. -/
def SetState.get (s : SetState) (node : NodeID) (name : String) : FileInfo :=
  match (s.replica node).find? fun f => f.name = name with
  | some f => f
  | none => emptyFileInfo

/-- Modelled from the spec: files.Set.Replace atomically sets the replica to
exactly the given files; each inserted entry receives the next localVersion
and the watermark advances past all of them. -/
def SetState.replace (s : SetState) (node : NodeID) (fs : List FileInfo) : SetState :=
  { s with
    replica := fun n => if n = node then assignLocalVers (s.localVer node) fs else s.replica n,
    localVer := fun n => if n = node then s.localVer node + fs.length else s.localVer n }

/-- Upsert of a single entry: same-name entries are overwritten in place,
new names are appended. -/
def upsertOne (rep : List FileInfo) (f : FileInfo) : List FileInfo :=
  if rep.any fun g => g.name = f.name then
    rep.map fun g => if g.name = f.name then f else g
  else rep ++ [f]

/-- Modelled from the spec: files.Set.Update, an upsert of the given files
into the replica; nothing is removed and each inserted entry receives the
next localVersion. -/
def SetState.update (s : SetState) (node : NodeID) (fs : List FileInfo) : SetState :=
  { s with
    replica := fun n =>
      if n = node then (assignLocalVers (s.localVer node) fs).foldl upsertOne (s.replica n)
      else s.replica n,
    localVer := fun n => if n = node then s.localVer node + fs.length else s.localVer n }

/-- The repo state machine values (model.go repoState). -/
inductive RepoState where
  | idle
  | scanning
  | syncing
  | cleaning
deriving DecidableEq

/-- Events emitted by the Model, restricted to the fields the claims
mention.  Time stamps and durations are in abstract time units. -/
inductive Event where
  | repoRejected (repo : RepoID) (node : NodeID)
  | remoteIndexUpdated (node : NodeID) (repo : RepoID) (items : Nat) (version : Nat)
  | localIndexUpdated (repo : RepoID) (name : String) (modified : Int) (flags : Nat)
  | nodeDisconnected (node : NodeID)
  | stateChanged (repo : RepoID) (fromState : Option RepoState) (toState : RepoState)
      (duration : Option Nat)
deriving DecidableEq

/-- Result of Model.Request.  The successful path performs disk I/O outside
the model; it is represented by the diskRead value carrying the path the
code would open and the range it would read. -/
inductive RequestResult where
  | noSuchFile
  | invalid
  | diskRead (path : String) (offset : Int) (size : Int)
deriving DecidableEq

/-- The Model registry state (model.go struct Model).  Maps are total
functions with the key set carried where presence matters; repos is the key
set of repoCfgs/repoFiles/repoNodes, which AddRepo populates together. -/
structure Model where
  repos : List RepoID
  repoDirs : RepoID → String
  repoFiles : RepoID → SetState
  repoNodes : RepoID → List NodeID
  nodeRepos : NodeID → List RepoID
  repoIgnores : RepoID → Patterns
  cfgNodes : List CfgNode
  connections : List NodeID
  repoState : RepoID → RepoState
  repoStateChanged : RepoID → Option Nat
  clock : Nat
  started : Bool

/-- NewModel: all maps empty; a missing repoState key reads as the Go zero
value RepoIdle; the configuration's node list is given. -/
def initModel (cfgNodes : List CfgNode) : Model :=
  { repos := [], repoDirs := fun _ => "", repoFiles := fun _ => emptySetState,
    repoNodes := fun _ => [], nodeRepos := fun _ => [],
    repoIgnores := fun _ => ⟨fun _ => false⟩, cfgNodes := cfgNodes,
    connections := [], repoState := fun _ => RepoState.idle,
    repoStateChanged := fun _ => none, clock := 0, started := false }

/-- model.go repoSharedWith: linear scan of nodeRepos for the repo. -/
def Model.repoSharedWith (m : Model) (repo : RepoID) (nodeID : NodeID) : Prop :=
  repo ∈ m.nodeRepos nodeID

instance (m : Model) (repo : RepoID) (nodeID : NodeID) :
    Decidable (m.repoSharedWith repo nodeID) :=
  inferInstanceAs (Decidable (repo ∈ m.nodeRepos nodeID))

/-- model.go AddRepo.  Panics (none) on a started model or empty id;
otherwise records the config, a fresh files.Set, the repo's node list, and
appends the repo to nodeRepos of every listed node. -/
def Model.AddRepo (m : Model) (cfg : RepositoryConfiguration) : Option Model :=
  if m.started = true ∨ cfg.id = "" then none
  else some
    { m with
      repos := if cfg.id ∈ m.repos then m.repos else m.repos ++ [cfg.id],
      repoDirs := fun r => if r = cfg.id then cfg.directory else m.repoDirs r,
      repoFiles := fun r => if r = cfg.id then emptySetState else m.repoFiles r,
      repoNodes := fun r => if r = cfg.id then cfg.nodes else m.repoNodes r,
      nodeRepos := cfg.nodes.foldl
        (fun nr n => fun x => if x = n then nr x ++ [cfg.id] else nr x) m.nodeRepos,
      started := m.started }

/-- model.go AddConnection, restricted to the peer map: panics (none) on a
duplicate node, otherwise records the connection.  The initial cluster
config and sender spawning are I/O. -/
def Model.AddConnection (m : Model) (node : NodeID) : Option Model :=
  if node ∈ m.connections then none
  else some { m with connections := m.connections ++ [node] }

/-- model.go Close: every repo the node shared gets its replica replaced by
an empty list, the connection maps drop the node, and NodeDisconnected is
emitted.  The transport close with its write deadline is I/O. -/
def Model.Close (m : Model) (node : NodeID) : Model × List Event :=
  ({ m with
      repoFiles := fun r =>
        if r ∈ m.nodeRepos node then (m.repoFiles r).replace node [] else m.repoFiles r,
      connections := m.connections.filter fun n => n ≠ node },
   [Event.nodeDisconnected node])

/-- Introducer flag of a configured node; a missing node reads as false
(the Go code would dereference nil there, leaving no new state either). -/
def introducerOf (cfg : List CfgNode) (n : NodeID) : Bool :=
  match cfg.find? fun c => c.id = n with
  | some c => c.introducer
  | none => false

def cfgHasNode (cfg : List CfgNode) (n : NodeID) : Bool :=
  cfg.any fun c => c.id = n

/-- The first half of the inner node loop of model.go ClusterConfig: an
announced node unknown to the config is added to it, propagating the
introducer flag. -/
def ccExtendCfg (m : Model) (cn : CCNode) : Model :=
  if cfgHasNode m.cfgNodes cn.id then m
  else { m with cfgNodes := m.cfgNodes ++ [⟨cn.id, cn.introducer⟩] }

/-- One iteration of the inner node loop of model.go ClusterConfig: add an
unknown announced node to the config, then unless the repo is already
shared with it, append it to both sides of the sharing graph. -/
def ccHandleNode (m : Model) (rid : RepoID) (cn : CCNode) : Model :=
  if rid ∈ (ccExtendCfg m cn).nodeRepos cn.id then ccExtendCfg m cn
  else
    { ccExtendCfg m cn with
      nodeRepos := fun n =>
        if n = cn.id then (ccExtendCfg m cn).nodeRepos n ++ [rid]
        else (ccExtendCfg m cn).nodeRepos n,
      repoNodes := fun r =>
        if r = rid then (ccExtendCfg m cn).repoNodes r ++ [cn.id]
        else (ccExtendCfg m cn).repoNodes r }

/-- One iteration of the repository loop of model.go ClusterConfig: repos we
do not have are skipped. -/
def ccHandleRepo (m : Model) (cr : CCRepo) : Model :=
  if cr.id ∈ m.repos then cr.nodes.foldl (fun a cn => ccHandleNode a cr.id cn) m
  else m

/-- model.go ClusterConfig, restricted to the sharing-graph effect: when the
sending node is marked Introducer in the local config, fold the announced
repositories into the graph; otherwise no graph change.  The client
name/version bookkeeping and config persistence are I/O. -/
def Model.ClusterConfig (m : Model) (nodeID : NodeID) (cm : ClusterConfigMessage) : Model :=
  if introducerOf m.cfgNodes nodeID then cm.repositories.foldl ccHandleRepo m
  else m

/-- model.go Request: unknown repo is ErrNoSuchFile; an Invalid- or
Deleted-flagged local entry is ErrInvalid; an offset beyond the entry's
size is ErrNoSuchFile; otherwise the code opens dir/name and reads the
range (diskRead).  No model state is written on any path. -/
def Model.Request (m : Model) (_nodeID : NodeID) (repo name : String)
    (offset : Int) (size : Int) : RequestResult :=
  if repo ∈ m.repos then
    let lf := (m.repoFiles repo).get LocalNodeID name
    if IsInvalid lf.flags || IsDeleted lf.flags then .invalid
    else if offset > lf.size then .noSuchFile
    else .diskRead (m.repoDirs repo ++ "/" ++ name) offset size
  else .noSuchFile

/-- model.go setState.  Time is passed explicitly: now is the current
instant.  A no-op transition does nothing; a real transition stamps the
change time and emits StateChanged, including from and duration only when a
previous change time was recorded. -/
def Model.setState (m : Model) (repo : RepoID) (state : RepoState) (now : Nat) :
    Model × List Event :=
  let oldState := m.repoState repo
  if state ≠ oldState then
    ({ m with
        repoState := fun r => if r = repo then state else m.repoState r,
        repoStateChanged := fun r => if r = repo then some now else m.repoStateChanged r },
     [match m.repoStateChanged repo with
      | some t => Event.stateChanged repo (some oldState) state (some (now - t))
      | none => Event.stateChanged repo none state none])
  else (m, [])

/-- model.go sizeOfFile: a non-deleted entry counts as a file, a deleted one
as a deletion; the byte size contributes either way. -/
def sizeOfFile (f : FileInfo) : Nat × Nat × Int :=
  if IsDeleted f.flags then (0, 1, f.size) else (1, 0, f.size)

/-- model.go LocalSize: fold over the local replica, skipping
Invalid-flagged entries entirely; the traversal over an unknown repo
contributes nothing. -/
def Model.LocalSize (m : Model) (repo : RepoID) : Nat × Nat × Int :=
  if repo ∈ m.repos then
    ((m.repoFiles repo).replica LocalNodeID).foldl
      (fun acc f =>
        if IsInvalid f.flags then acc
        else (acc.1 + (sizeOfFile f).1, acc.2.1 + (sizeOfFile f).2.1,
              acc.2.2 + (sizeOfFile f).2.2))
      (0, 0, 0)
  else (0, 0, 0)

/-- model.go Completion.  The float64 arithmetic of the source is modelled
exactly over the rationals: 100 * (1 - need/tot), with 0 for an unknown
repo and 100 for an empty one. -/
def Model.Completion (m : Model) (node : NodeID) (repo : RepoID) : ℚ :=
  if repo ∈ m.repos then
    let rf := m.repoFiles repo
    let tot : Int := rf.globalView.foldl
      (fun acc f => if IsDeleted f.flags then acc else acc + f.size) 0
    if tot = 0 then 100
    else
      let need : Int := (rf.needView node).foldl
        (fun acc f => if IsDeleted f.flags then acc else acc + f.size) 0
      100 * (1 - (need : ℚ) / (tot : ℚ))
  else 0

/-- The visitor loop of model.go NeedFilesRepoLimited: append the file,
count its blocks, and continue while both limits are respected (a limit at
or below zero never stops the traversal). -/
def needLimitedLoop (maxFiles maxBlocks : Int) :
    List FileInfo → List FileInfo → Nat → List FileInfo
  | [], acc, _ => acc
  | f :: rest, acc, nblocks =>
    if (maxFiles ≤ 0 ∨ (((acc ++ [f]).length : Int) < maxFiles)) ∧
        (maxBlocks ≤ 0 ∨ (((nblocks + f.blocks.length : Nat) : Int) < maxBlocks)) then
      needLimitedLoop maxFiles maxBlocks rest (acc ++ [f]) (nblocks + f.blocks.length)
    else acc ++ [f]

/-- Total number of blocks over a list of files. -/
def totalBlocks (l : List FileInfo) : Nat :=
  (l.map fun f => f.blocks.length).sum

/-- Block count of the last file of a list (0 for the empty list). -/
def lastBlocks (l : List FileInfo) : Nat :=
  (l.getLastD emptyFileInfo).blocks.length

/-- Result of NeedFilesRepoLimited: the nil slice for an unknown repo, a
real slice otherwise — unless the slice allocation panics first. -/
inductive NeedFilesResult where
  | nilSlice
  | files (l : List FileInfo)
  | crash
deriving DecidableEq

/-- model.go NeedFilesRepoLimited: nil for an unknown repo; for a known
repo the result slice is allocated by make with capacity maxFiles, which
panics (crash: makeslice cap out of range) when maxFiles is negative, and
otherwise the limited prefix of the need traversal is returned. -/
def Model.NeedFilesRepoLimited (m : Model) (repo : RepoID) (maxFiles maxBlocks : Int) :
    NeedFilesResult :=
  if repo ∈ m.repos then
    if maxFiles < 0 then NeedFilesResult.crash
    else NeedFilesResult.files
      (needLimitedLoop maxFiles maxBlocks ((m.repoFiles repo).needView LocalNodeID) [] 0)
  else NeedFilesResult.nilSlice

/-- Swap removal of the head of the unprocessed suffix, as the Index loop
does it in place: the last element is moved into the removed slot and the
list shrinks by one. -/
def swapRemove : List FileInfo → List FileInfo
  | [] => []
  | _ :: rest => if rest = [] then [] else rest.getLastD emptyFileInfo :: rest.dropLast

lemma swapRemove_length_cons (f : FileInfo) (rest : List FileInfo) :
    (swapRemove (f :: rest)).length = rest.length := by
  rcases rest with _ | ⟨a, t⟩
  · simp [swapRemove]
  · simp [swapRemove, List.length_dropLast]

/-- The filtering loop of model.go Index/IndexUpdate, acting on the
unprocessed suffix of the incoming slice: every visited entry's version is
ticked into the lamport clock; an entry whose name matches the ignore
patterns is removed by swapping in the last element (which is then itself
visited), otherwise the entry is kept in place and the loop moves on. -/
def tickAndFilter (ign : Patterns) : Nat → List FileInfo → Nat × List FileInfo
  | c, [] => (c, [])
  | c, f :: rest =>
    let c2 := Lamport.tick c f.version
    if ign.Match f.name then tickAndFilter ign c2 (swapRemove (f :: rest))
    else
      let r := tickAndFilter ign c2 rest
      (r.1, f :: r.2)
termination_by _ l => l.length
decreasing_by
  · simp [swapRemove_length_cons]
  · simp only [List.length_cons]
    omega

/-- model.go Index: reject (with a RepoRejected event) when the sending
node does not share the repo; crash (none) when it shares a repo the model
does not know; otherwise tick-and-filter the entries, Replace the node's
replica with the survivors, and emit RemoteIndexUpdated with the survivor
count and the new watermark. -/
def Model.Index (m : Model) (nodeID : NodeID) (repo : RepoID) (fs : List FileInfo) :
    Option (Model × List Event) :=
  if repo ∈ m.nodeRepos nodeID then
    if repo ∈ m.repos then
      let res := tickAndFilter (m.repoIgnores repo) m.clock fs
      let s2 := (m.repoFiles repo).replace nodeID res.2
      some
        ({ m with
            clock := res.1,
            repoFiles := fun r => if r = repo then s2 else m.repoFiles r },
         [Event.remoteIndexUpdated nodeID repo res.2.length (s2.localVer nodeID)])
    else none
  else some (m, [Event.repoRejected repo nodeID])

/-- model.go IndexUpdate: as Index, but an unauthorized message is only
logged (no event at all), and the surviving entries go through Update
instead of Replace. -/
def Model.IndexUpdate (m : Model) (nodeID : NodeID) (repo : RepoID) (fs : List FileInfo) :
    Option (Model × List Event) :=
  if repo ∈ m.nodeRepos nodeID then
    if repo ∈ m.repos then
      let res := tickAndFilter (m.repoIgnores repo) m.clock fs
      let s2 := (m.repoFiles repo).update nodeID res.2
      some
        ({ m with
            clock := res.1,
            repoFiles := fun r => if r = repo then s2 else m.repoFiles r },
         [Event.remoteIndexUpdated nodeID repo res.2.length (s2.localVer nodeID)])
    else none
  else some (m, [])

/-- Modelled from the spec: an ordered traversal delivering entries to a
visitor that returns continue; a false return stops the walk. -/
def walkWithStop {α β : Type} (step : α → β → α × Bool) : α → List β → α
  | st, [] => st
  | st, x :: xs =>
    let r := step st x
    if r.2 then walkWithStop step r.1 xs else r.1

/-- model.go index message size constants. -/
def indexTargetSize : Int := 250 * 1024

def indexPerFileSize : Int := 250

def IndexPerBlockSize : Int := 40

def indexBatchSize : Nat := 1000

/-- The kind of an outbound index message. -/
inductive MsgKind where
  | index
  | indexUpdate
deriving DecidableEq

/-- The mutable state of one sendIndexTo run: the batch being assembled,
its estimated wire size, the highest localVersion seen, whether the next
flush is the initial Index, whether a send has failed, and the trace of
messages handed to the connection so far. -/
structure SendSt where
  batch : List FileInfo
  currentBatchSize : Int
  maxLocalVer : Nat
  initial : Bool
  err : Bool
  sends : List (MsgKind × List FileInfo)

/-- The visitor body of model.go sendIndexTo.  Entries at or below the
watermark are skipped; the ignore filter drops entries; a full batch is
flushed as Index while initial and IndexUpdate afterwards, a failed send
recording the error and stopping the walk.  sendOk is the oracle for the
outcome of the n-th send on the connection. -/
def sendStep (sendOk : Nat → Bool) (ign : Patterns) (minLocalVer : Nat)
    (st : SendSt) (f : FileInfo) : SendSt × Bool :=
  if f.localVersion ≤ minLocalVer then (st, true)
  else
    let st1 := if st.maxLocalVer < f.localVersion then { st with maxLocalVer := f.localVersion }
               else st
    if ign.Match f.name then (st1, true)
    else if st1.batch.length = indexBatchSize ∨ st1.currentBatchSize > indexTargetSize then
      let kind := if st1.initial then MsgKind.index else MsgKind.indexUpdate
      let ok := sendOk st1.sends.length
      let st2 := { st1 with sends := st1.sends ++ [(kind, st1.batch)] }
      if ok then
        ({ st2 with
            batch := [f],
            currentBatchSize := indexPerFileSize + (f.blocks.length : Int) * IndexPerBlockSize,
            initial := false },
         true)
      else ({ st2 with err := true }, false)
    else
      ({ st1 with
          batch := st1.batch ++ [f],
          currentBatchSize :=
            st1.currentBatchSize + indexPerFileSize + (f.blocks.length : Int) * IndexPerBlockSize },
       true)

/-- model.go sendIndexTo over the local replica's ordered entries
(haveList).  Returns the new watermark, the error flag, and the trace of
sent messages: while still initial an Index goes out even with an empty
batch, otherwise a non-empty final batch goes out as IndexUpdate. -/
def sendIndexTo (initial : Bool) (minLocalVer : Nat) (sendOk : Nat → Bool)
    (haveList : List FileInfo) (ign : Patterns) :
    Nat × Bool × List (MsgKind × List FileInfo) :=
  let st0 : SendSt :=
    { batch := [], currentBatchSize := 0, maxLocalVer := 0, initial := initial,
      err := false, sends := [] }
  let st := walkWithStop (sendStep sendOk ign minLocalVer) st0 haveList
  if st.initial = true ∧ st.err = false then
    (st.maxLocalVer, !sendOk st.sends.length, st.sends ++ [(MsgKind.index, st.batch)])
  else if st.batch.length > 0 ∧ st.err = false then
    (st.maxLocalVer, !sendOk st.sends.length, st.sends ++ [(MsgKind.indexUpdate, st.batch)])
  else (st.maxLocalVer, st.err, st.sends)

/-- strings.HasPrefix as Go uses it in the scan's second pass: byte (here
character-list) prefix test.  String.isPrefixOf is avoided because its
byte-level loop does not reduce in the kernel. -/
def hasPfx (sub s : String) : Bool := sub.data.isPrefixOf s.data

/-- Outcome of an os.Stat call during the scan's second pass. -/
inductive StatRes where
  | ok
  | notExist
  | otherError
deriving DecidableEq

/-- model.go ScanRepoSub batch size for index writes. -/
def scanBatchSize : Nat := 100

/-- The mutable state of the second pass of ScanRepoSub: the lamport clock,
the batch under construction, the entries already flushed through Update,
and whether a name under the subpath has been seen yet. -/
structure ScanSt where
  clock : Nat
  batch : List FileInfo
  written : List FileInfo
  seenPfx : Bool

/-- The visitor body of the second pass of model.go ScanRepoSub over the
local replica: names outside the subpath are skipped until the subpath
block has been entered, after which the first such name stops the walk;
deleted and invalid entries are left alone; a full batch is flushed; an
ignored name is written back with the Invalid flag and unchanged version; a
name whose stat reports NotExist is written back with the Deleted flag and
a ticked version.  stat is the oracle for os.Stat on the joined path. -/
def scanPass2Step (dir sub : String) (ign : Patterns) (stat : String → StatRes)
    (st : ScanSt) (f : FileInfo) : ScanSt × Bool :=
  if hasPfx sub f.name = false then (st, !st.seenPfx)
  else
    let st := { st with seenPfx := true }
    if IsDeleted f.flags then (st, true)
    else if IsInvalid f.flags then (st, true)
    else
      let st :=
        if st.batch.length = scanBatchSize then
          { st with written := st.written ++ st.batch, batch := [] }
        else st
      if ign.Match f.name then
        ({ st with
            batch := st.batch ++
              [{ name := f.name, flags := f.flags ||| FlagInvalid, modified := f.modified,
                 version := f.version, localVersion := 0, blocks := [] }] },
         true)
      else if stat (dir ++ "/" ++ f.name) = StatRes.notExist then
        ({ st with
            clock := Lamport.tick st.clock f.version,
            batch := st.batch ++
              [{ name := f.name, flags := f.flags ||| FlagDeleted, modified := f.modified,
                 version := Lamport.tick st.clock f.version, localVersion := 0, blocks := [] }] },
         true)
      else (st, true)

/-- The second pass of model.go ScanRepoSub as a whole: walk the replica
snapshot, then flush the final batch.  Returns the final clock and the
concatenation of all entries written back through Update. -/
def scanPass2 (dir sub : String) (ign : Patterns) (stat : String → StatRes)
    (clock0 : Nat) (replica : List FileInfo) : Nat × List FileInfo :=
  let st := walkWithStop (scanPass2Step dir sub ign stat)
    { clock := clock0, batch := [], written := [], seenPfx := false } replica
  (st.clock, st.written ++ st.batch)

/-- One step of the Model as a transition system: the operations of
model.go modelled above, each applied with arbitrary arguments.  Partial
operations (whose Go original panics) step only on their defined results. -/
inductive Step : Model → Model → Prop where
  | addRepo (m : Model) (cfg : RepositoryConfiguration) (m2 : Model) :
      m.AddRepo cfg = some m2 → Step m m2
  | addConnection (m : Model) (n : NodeID) (m2 : Model) :
      m.AddConnection n = some m2 → Step m m2
  | clusterConfig (m : Model) (n : NodeID) (cm : ClusterConfigMessage) :
      Step m (m.ClusterConfig n cm)
  | close (m : Model) (n : NodeID) :
      Step m (m.Close n).1
  | index (m : Model) (n : NodeID) (r : RepoID) (fs : List FileInfo)
      (m2 : Model) (ev : List Event) :
      m.Index n r fs = some (m2, ev) → Step m m2
  | indexUpdate (m : Model) (n : NodeID) (r : RepoID) (fs : List FileInfo)
      (m2 : Model) (ev : List Event) :
      m.IndexUpdate n r fs = some (m2, ev) → Step m m2
  | setState (m : Model) (r : RepoID) (s : RepoState) (now : Nat) :
      Step m (m.setState r s now).1

/-- States reachable from a fresh model by any sequence of the modelled
operations. -/
inductive Reachable : Model → Prop where
  | init (cfgNodes : List CfgNode) : Reachable (initModel cfgNodes)
  | step (m m2 : Model) : Reachable m → Step m m2 → Reachable m2

/-- As Step, but AddRepo is restricted to repo ids not already present
(each repo added at most once). -/
inductive StepD : Model → Model → Prop where
  | addRepo (m : Model) (cfg : RepositoryConfiguration) (m2 : Model) :
      cfg.id ∉ m.repos → m.AddRepo cfg = some m2 → StepD m m2
  | addConnection (m : Model) (n : NodeID) (m2 : Model) :
      m.AddConnection n = some m2 → StepD m m2
  | clusterConfig (m : Model) (n : NodeID) (cm : ClusterConfigMessage) :
      StepD m (m.ClusterConfig n cm)
  | close (m : Model) (n : NodeID) :
      StepD m (m.Close n).1
  | index (m : Model) (n : NodeID) (r : RepoID) (fs : List FileInfo)
      (m2 : Model) (ev : List Event) :
      m.Index n r fs = some (m2, ev) → StepD m m2
  | indexUpdate (m : Model) (n : NodeID) (r : RepoID) (fs : List FileInfo)
      (m2 : Model) (ev : List Event) :
      m.IndexUpdate n r fs = some (m2, ev) → StepD m m2
  | setState (m : Model) (r : RepoID) (s : RepoState) (now : Nat) :
      StepD m (m.setState r s now).1

/-- States reachable when no two AddRepo calls share a repo id. -/
inductive ReachableD : Model → Prop where
  | init (cfgNodes : List CfgNode) : ReachableD (initModel cfgNodes)
  | step (m m2 : Model) : ReachableD m → StepD m m2 → ReachableD m2

/-- The sharing graph is symmetric: a node is listed for a repo exactly
when the repo is listed for the node. -/
def SharingSymmetric (m : Model) : Prop :=
  ∀ r n, n ∈ m.repoNodes r ↔ r ∈ m.nodeRepos n

/-- Shape of a sender's message trace: a first Index message followed only
by IndexUpdate messages. -/
def headIndexRest (l : List (MsgKind × List FileInfo)) : Prop :=
  ∃ b rest, l = (MsgKind.index, b) :: rest ∧ ∀ p ∈ rest, p.1 = MsgKind.indexUpdate

/-- Invariant of a sender mid-walk (no failed send yet): while the initial
Index is still pending nothing has been sent, and once it is no longer
pending the trace starts with an Index followed only by IndexUpdates. -/
def senderInv (st : SendSt) : Prop :=
  (st.err = false ∧ st.initial = true ∧ st.sends = []) ∨
  (st.err = false ∧ st.initial = false ∧ headIndexRest st.sends)

/-- Fixture: a model holding one repo with a single deleted local entry,
used to evaluate Request concretely. -/
def reqModel : Model :=
  { initModel [] with
    repos := ["r"],
    repoFiles := fun r =>
      if r = "r" then
        { emptySetState with
          replica := fun n =>
            if n = LocalNodeID then
              [{ name := "a", flags := FlagDeleted, modified := 0, version := 3,
                 localVersion := 1, blocks := [] }]
            else [] }
      else emptySetState }

/-- Fixture: a model with one valid, one deleted and one invalid local
entry, used to evaluate LocalSize concretely. -/
def locModel : Model :=
  { initModel [] with
    repos := ["r"],
    repoFiles := fun r =>
      if r = "r" then
        { emptySetState with
          replica := fun n =>
            if n = LocalNodeID then
              [{ name := "a", flags := 0, modified := 0, version := 1, localVersion := 1,
                 blocks := [⟨0, 2, []⟩] },
               { name := "b", flags := FlagDeleted, modified := 0, version := 2,
                 localVersion := 2, blocks := [⟨0, 3, []⟩] },
               { name := "c", flags := FlagInvalid, modified := 0, version := 3,
                 localVersion := 3, blocks := [⟨0, 4, []⟩] }]
            else [] }
      else emptySetState }

/-- Fixture: a model whose repo has a four-byte global view and a one-byte
need view for node 2, used to evaluate Completion concretely. -/
def compModel : Model :=
  { initModel [] with
    repos := ["r"],
    repoFiles := fun r =>
      if r = "r" then
        { emptySetState with
          globalView :=
            [{ name := "a", flags := 0, modified := 0, version := 1, localVersion := 1,
               blocks := [⟨0, 4, []⟩] }],
          needView := fun n =>
            if n = 2 then
              [{ name := "a", flags := 0, modified := 0, version := 1, localVersion := 0,
                 blocks := [⟨0, 1, []⟩] }]
            else [] }
      else emptySetState }

/-- Fixture: a model whose local need view holds three files of one block
each, used to evaluate NeedFilesRepoLimited concretely. -/
def needModel : Model :=
  { initModel [] with
    repos := ["r"],
    repoFiles := fun r =>
      if r = "r" then
        { emptySetState with
          needView := fun n =>
            if n = LocalNodeID then
              [{ name := "a", flags := 0, modified := 0, version := 1, localVersion := 0,
                 blocks := [⟨0, 1, []⟩] },
               { name := "b", flags := 0, modified := 0, version := 2, localVersion := 0,
                 blocks := [⟨0, 1, []⟩] },
               { name := "c", flags := 0, modified := 0, version := 3, localVersion := 0,
                 blocks := [⟨0, 1, []⟩] }]
            else [] }
      else emptySetState }

/-- Fixture: a model sharing repo r with node 1, whose ignore patterns for
r match exactly the name x, used to evaluate Index concretely. -/
def idxModel : Model :=
  { initModel [] with
    repos := ["r"],
    repoNodes := fun r => if r = "r" then [1] else [],
    nodeRepos := fun n => if n = 1 then ["r"] else [],
    repoIgnores := fun _ => ⟨fun s => s = "x"⟩ }

/-- The inductive invariant behind sharing-graph symmetry: the graph is
symmetric and nodeRepos only mentions repos the model knows. -/
def GraphInv (m : Model) : Prop :=
  SharingSymmetric m ∧ ∀ x r, r ∈ m.nodeRepos x → r ∈ m.repos

/-- Fixture: the model after adding repo r shared with node 1. -/
def dupModel1 : Model :=
  ((initModel []).AddRepo ⟨"r", "", [1]⟩).getD (initModel [])

/-- Fixture: the model after adding repo r a second time with an empty node
list; the stale nodeRepos entry of node 1 survives the overwrite of
repoNodes, breaking symmetry. -/
def dupModel2 : Model :=
  (dupModel1.AddRepo ⟨"r", "", []⟩).getD (initModel [])

/-- Fixture: a live local entry whose file has vanished from disk, used to
evaluate the scan's second pass concretely. -/
def scanFile : FileInfo :=
  { name := "a", flags := 0, modified := 5, version := 3, localVersion := 1, blocks := [] }

/-- Fixture: a model after its first state transition, used to exercise the
duration-carrying branch of setState. -/
def stModel : Model :=
  ((initModel []).setState "r" RepoState.scanning 5).1

/-- Fixture: an incoming index with one ignored name (x) and one kept name
(a), used to evaluate Index concretely. -/
def idxFiles : List FileInfo :=
  [{ name := "x", flags := 0, modified := 0, version := 10, localVersion := 0, blocks := [] },
   { name := "a", flags := 0, modified := 0, version := 7, localVersion := 0, blocks := [] }]

/-- Fixture: the first two entries of needModel's need view, the expected
result of a traversal limited to two files. -/
def needResult : List FileInfo :=
  [{ name := "a", flags := 0, modified := 0, version := 1, localVersion := 0,
     blocks := [⟨0, 1, []⟩] },
   { name := "b", flags := 0, modified := 0, version := 2, localVersion := 0,
     blocks := [⟨0, 1, []⟩] }]

/-! Theorems. -/

/-- C7 counterexample: the first transition of a fresh repo emits a
StateChanged event carrying neither from nor duration (the source includes
them only when a previous change time was recorded), so the claim that
every real transition emits an event carrying from and duration is false at
this input. -/
theorem setState_first_transition_counterexample :
    ((initModel []).setState "r" RepoState.scanning 5).2 =
      [Event.stateChanged "r" none RepoState.scanning none] ∧
    RepoState.scanning ≠ (initModel []).repoState "r" ∧
    ∀ fr d, ((initModel []).setState "r" RepoState.scanning 5).2 ≠
      [Event.stateChanged "r" (some fr) RepoState.scanning (some d)] := by
  refine ⟨by decide, by decide, ?_⟩
  intro fr d h
  rw [show ((initModel []).setState "r" RepoState.scanning 5).2 =
      [Event.stateChanged "r" none RepoState.scanning none] from by decide] at h
  simp at h

/-- C7 (amended): setState with the current state is a no-op (no event, no
stamp); a differing state stamps repoStateChanged to now and emits
StateChanged with the old and new state and duration now minus the previous
change time when such a time was recorded, and with neither from nor
duration on the repo's first transition. -/
theorem setState_behavior (m : Model) (repo : RepoID) (s : RepoState) (now : Nat) :
    (s = m.repoState repo → m.setState repo s now = (m, [])) ∧
    (s ≠ m.repoState repo →
      (m.setState repo s now).1.repoState repo = s ∧
      (m.setState repo s now).1.repoStateChanged repo = some now ∧
      (∀ t, m.repoStateChanged repo = some t →
        (m.setState repo s now).2 =
          [Event.stateChanged repo (some (m.repoState repo)) s (some (now - t))]) ∧
      (m.repoStateChanged repo = none →
        (m.setState repo s now).2 = [Event.stateChanged repo none s none])) := by
  constructor
  · intro h
    simp [Model.setState, h]
  · intro h
    refine ⟨by simp [Model.setState, h], by simp [Model.setState, h], ?_, ?_⟩
    · intro t ht
      simp [Model.setState, h, ht]
    · intro ht
      simp [Model.setState, h, ht]

/-- C7 witness: a second transition with a recorded change time emits the
event with from, to and duration. -/
theorem setState_behavior_witness :
    RepoState.idle ≠ stModel.repoState "r" ∧
    (stModel.setState "r" RepoState.idle 9).2 =
      [Event.stateChanged "r" (some RepoState.scanning) RepoState.idle (some 4)] := by
  constructor
  · decide
  · have h := ((setState_behavior stModel "r" RepoState.idle 9).2 (by decide)).2.2.1 5 (by decide)
    rw [h]
    decide

/-- C2 counterexample: an IndexUpdate from a node that does not share the
repo produces no event at all (it is only logged), so the claim that a
RepoRejected event is emitted for unauthorized IndexUpdate callbacks is
false at this input. -/
theorem unauthorized_indexUpdate_counterexample :
    (initModel []).IndexUpdate 1 "r" [] = some (initModel [], []) ∧
    "r" ∉ (initModel []).nodeRepos 1 := by
  exact ⟨rfl, by decide⟩

/-- C2 (amended): an Index from a node that does not share the repo leaves
the model (in particular every index set and the connection set) unchanged
and emits exactly a RepoRejected event; an unauthorized IndexUpdate equally
leaves the model unchanged but emits no event.  Neither returns the crash
outcome, so the connection survives. -/
theorem unauthorized_index_behavior (m : Model) (n : NodeID) (r : RepoID)
    (fs fs2 : List FileInfo) (h : r ∉ m.nodeRepos n) :
    m.Index n r fs = some (m, [Event.repoRejected r n]) ∧
    m.IndexUpdate n r fs2 = some (m, []) := by
  constructor
  · simp [Model.Index, h]
  · simp [Model.IndexUpdate, h]

/-- C2 witness: an unauthorized Index at a concrete model is rejected with
a RepoRejected event and no state change. -/
theorem unauthorized_index_behavior_witness :
    "q" ∉ idxModel.nodeRepos 3 ∧
    idxModel.Index 3 "q" [] = some (idxModel, [Event.repoRejected "q" 3]) ∧
    idxModel.IndexUpdate 3 "q" [] = some (idxModel, []) := by
  refine ⟨by decide, ?_, ?_⟩
  · exact (unauthorized_index_behavior idxModel 3 "q" [] [] (by decide)).1
  · exact (unauthorized_index_behavior idxModel 3 "q" [] [] (by decide)).2

/-- C1 counterexample: with a Deleted local entry and an offset beyond its
size the code returns ErrInvalid where the claim's exactly-when condition
demands ErrNoSuchFile (the Invalid check precedes the offset check); and
with a name absent from the local replica at offset 0 the code proceeds to
the disk read instead of returning ErrNoSuchFile (absence surfaces only
through the zero entry's size). -/
theorem request_counterexample :
    reqModel.Request 7 "r" "a" 200 1 = RequestResult.invalid ∧
    RequestResult.invalid ≠ RequestResult.noSuchFile ∧
    "r" ∈ reqModel.repos ∧
    (200 : Int) > ((reqModel.repoFiles "r").get LocalNodeID "a").size ∧
    reqModel.Request 7 "r" "b" 0 1 = RequestResult.diskRead "/b" 0 1 ∧
    (∀ f ∈ (reqModel.repoFiles "r").replica LocalNodeID, f.name ≠ "b") := by
  decide

/-- C1 (amended): Request returns NoSuchFile exactly when the repo is
unknown, or the repo is known, the local entry (the zero entry when the
name is absent) carries neither the Invalid nor the Deleted flag, and the
offset exceeds that entry's size; it returns Invalid exactly when the repo
is known and the entry carries the Invalid or Deleted flag.  Request writes
no model state on any path (it is a pure function of the model). -/
theorem request_error_characterization (m : Model) (n : NodeID) (repo name : String)
    (offset : Int) (size : Int) :
    (m.Request n repo name offset size = RequestResult.noSuchFile ↔
      (repo ∉ m.repos ∨
        (repo ∈ m.repos ∧
          (IsInvalid ((m.repoFiles repo).get LocalNodeID name).flags ||
            IsDeleted ((m.repoFiles repo).get LocalNodeID name).flags) = false ∧
          offset > ((m.repoFiles repo).get LocalNodeID name).size))) ∧
    (m.Request n repo name offset size = RequestResult.invalid ↔
      (repo ∈ m.repos ∧
        (IsInvalid ((m.repoFiles repo).get LocalNodeID name).flags ||
          IsDeleted ((m.repoFiles repo).get LocalNodeID name).flags) = true)) := by
  by_cases hr : repo ∈ m.repos
  · by_cases hflag :
      (IsInvalid ((m.repoFiles repo).get LocalNodeID name).flags ||
        IsDeleted ((m.repoFiles repo).get LocalNodeID name).flags) = true
    · simp [Model.Request, hr, hflag]
    · by_cases hoff : offset > ((m.repoFiles repo).get LocalNodeID name).size
      · simp [Model.Request, hr, hflag, hoff]
      · simp [Model.Request, hr, hflag, hoff]
  · simp [Model.Request, hr]

/-- Accumulator form of the LocalSize fold. -/
lemma localSizeFold (l : List FileInfo) (a b : Nat) (c : Int) :
    l.foldl
      (fun acc f =>
        if IsInvalid f.flags then acc
        else (acc.1 + (sizeOfFile f).1, acc.2.1 + (sizeOfFile f).2.1,
              acc.2.2 + (sizeOfFile f).2.2))
      (a, b, c) =
    (a + l.countP (fun f => !IsInvalid f.flags && !IsDeleted f.flags),
     b + l.countP (fun f => !IsInvalid f.flags && IsDeleted f.flags),
     c + ((l.filter fun f => !IsInvalid f.flags).map FileInfo.size).sum) := by
  induction l generalizing a b c with
  | nil => simp
  | cons f t ih =>
    rw [List.foldl_cons]
    by_cases hi : IsInvalid f.flags
    · rw [if_pos hi, ih]
      simp [List.countP_cons, List.filter_cons, hi]
    · rw [if_neg hi, ih]
      by_cases hd : IsDeleted f.flags <;>
        simp [List.countP_cons, List.filter_cons, hi, hd, sizeOfFile, Prod.mk.injEq] <;>
        omega

/-- C9: LocalSize skips Invalid entries entirely (they feed no count and no
byte total); among the remaining entries the non-deleted ones feed the file
count, the deleted ones feed the deleted count, and every one of them,
deleted included, feeds the byte total with its size. -/
theorem localSize_characterization (m : Model) (repo : RepoID) (h : repo ∈ m.repos) :
    m.LocalSize repo =
      (((m.repoFiles repo).replica LocalNodeID).countP
         (fun f => !IsInvalid f.flags && !IsDeleted f.flags),
       ((m.repoFiles repo).replica LocalNodeID).countP
         (fun f => !IsInvalid f.flags && IsDeleted f.flags),
       ((((m.repoFiles repo).replica LocalNodeID).filter
           fun f => !IsInvalid f.flags).map FileInfo.size).sum) := by
  unfold Model.LocalSize
  rw [if_pos h, localSizeFold]
  simp

/-- C9 witness: LocalSize of the concrete fixture counts the valid and
deleted entries and both their sizes, and nothing from the invalid one. -/
theorem localSize_characterization_witness :
    "r" ∈ locModel.repos ∧ locModel.LocalSize "r" = (1, 1, 5) := by
  constructor
  · decide
  · rw [localSize_characterization locModel "r" (by decide)]
    decide

/-- Accumulator form of the Completion size fold. -/
lemma completionSizeFold (l : List FileInfo) (a : Int) :
    l.foldl (fun acc f => if IsDeleted f.flags then acc else acc + f.size) a =
      a + ((l.filter fun f => !IsDeleted f.flags).map FileInfo.size).sum := by
  induction l generalizing a with
  | nil => simp
  | cons f t ih =>
    by_cases hd : IsDeleted f.flags <;> simp [hd, ih, List.filter_cons] <;> omega

/-- C5: Completion is 0 for an unknown repo; otherwise, with total the sum
of sizes of non-deleted files of the global view and need the sum of sizes
of non-deleted files of the node's need view, it is 100 when total is 0
and 100 * (1 - need/total) otherwise (the source's float64 arithmetic is
modelled exactly over the rationals). -/
theorem completion_formula (m : Model) (node : NodeID) (repo : RepoID) :
    (repo ∉ m.repos → m.Completion node repo = 0) ∧
    (repo ∈ m.repos →
      ∀ tot need : Int,
        tot = (((m.repoFiles repo).globalView.filter fun f => !IsDeleted f.flags).map
            FileInfo.size).sum →
        need = ((((m.repoFiles repo).needView node).filter fun f => !IsDeleted f.flags).map
            FileInfo.size).sum →
        (tot = 0 → m.Completion node repo = 100) ∧
        (tot ≠ 0 → m.Completion node repo = 100 * (1 - (need : ℚ) / (tot : ℚ)))) := by
  refine ⟨fun h => by simp [Model.Completion, h], fun h => ?_⟩
  rintro tot need rfl rfl
  refine ⟨fun ht => ?_, fun ht => ?_⟩
  · simp only [Model.Completion, if_pos h, completionSizeFold, Int.zero_add, zero_add]
    rw [if_pos ht]
  · simp only [Model.Completion, if_pos h, completionSizeFold, Int.zero_add, zero_add]
    rw [if_neg ht]

/-- C5 witness: with a four-byte non-deleted global view and a one-byte
need view, Completion is 100 * (1 - 1/4) = 75. -/
theorem completion_formula_witness :
    "r" ∈ compModel.repos ∧ compModel.Completion 2 "r" = 75 := by
  constructor
  · decide
  · have h := (((completion_formula compModel 2 "r").2 (by decide)) 4 1 (by decide)
      (by decide)).2 (by decide)
    rw [h]
    norm_num

/-- With both limits at or below zero, the need traversal is exhaustive. -/
lemma needLimitedLoop_noLimit (maxFiles maxBlocks : Int) (hf : maxFiles ≤ 0)
    (hb : maxBlocks ≤ 0) :
    ∀ l acc nb, needLimitedLoop maxFiles maxBlocks l acc nb = acc ++ l := by
  intro l
  induction l with
  | nil => intro acc nb; simp [needLimitedLoop]
  | cons f t ih =>
    intro acc nb
    simp [needLimitedLoop, hf, hb, ih]

/-- With a positive file limit, the traversal never exceeds it. -/
lemma needLimitedLoop_length (maxFiles maxBlocks : Int) (hf : 0 < maxFiles) :
    ∀ l acc nb, (acc.length : Int) < maxFiles →
      ((needLimitedLoop maxFiles maxBlocks l acc nb).length : Int) ≤ maxFiles := by
  intro l
  induction l with
  | nil =>
    intro acc nb h
    simpa [needLimitedLoop] using le_of_lt h
  | cons f t ih =>
    intro acc nb h
    simp only [needLimitedLoop]
    split
    · rename_i hcond
      apply ih
      rcases hcond.1 with h1 | h1
      · omega
      · exact h1
    · simp only [List.length_append, List.length_singleton]
      push_cast
      omega

/-- With a positive block limit, the traversal's total block count exceeds
the limit by at most the block count of the last appended file. -/
lemma needLimitedLoop_blocks (maxFiles maxBlocks : Int) (hb : 0 < maxBlocks) :
    ∀ l acc nb, nb = totalBlocks acc → (nb : Int) < maxBlocks →
      (totalBlocks (needLimitedLoop maxFiles maxBlocks l acc nb) : Int) ≤
        maxBlocks + (lastBlocks (needLimitedLoop maxFiles maxBlocks l acc nb) : Int) := by
  intro l
  induction l with
  | nil =>
    intro acc nb he h
    simp only [needLimitedLoop]
    omega
  | cons f t ih =>
    intro acc nb he h
    simp only [needLimitedLoop]
    split
    · rename_i hcond
      apply ih
      · simp [totalBlocks, he]
      · rcases hcond.2 with h1 | h1
        · omega
        · exact_mod_cast h1
    · have h1 : totalBlocks (acc ++ [f]) = totalBlocks acc + f.blocks.length := by
        simp [totalBlocks]
      have h2 : lastBlocks (acc ++ [f]) = f.blocks.length := by
        simp [lastBlocks]
      rw [h1, h2]
      omega

/-- C10 counterexample: for a known repo and maxFiles = -1 the allocation
make([]protocol.FileInfo, 0, maxFiles) panics (makeslice: cap out of
range) before any traversal, so the claim that limits at or below zero
impose no bound — that the unbounded traversal result is returned — is
false of the program for negative maxFiles. -/
theorem needFilesRepoLimited_counterexample :
    "r" ∈ needModel.repos ∧ (-1 : Int) ≤ 0 ∧
    needModel.NeedFilesRepoLimited "r" (-1) (-1) = NeedFilesResult.crash ∧
    ∀ l, needModel.NeedFilesRepoLimited "r" (-1) (-1) ≠ NeedFilesResult.files l := by
  refine ⟨by decide, by decide, by decide, ?_⟩
  intro l h
  rw [show needModel.NeedFilesRepoLimited "r" (-1) (-1) = NeedFilesResult.crash from
    by decide] at h
  exact NeedFilesResult.noConfusion h

/-- C10 (amended): NeedFilesRepoLimited returns the nil slice for an
unknown repo; for a known repo a negative maxFiles panics in the slice
allocation before any traversal; maxFiles = 0 together with maxBlocks at
or below zero imposes no bound (the full need view is returned); a
positive maxFiles bounds the result's length; and with a positive
maxBlocks the result's total block count exceeds maxBlocks by at most the
block count of the final file (the traversal stops only after appending
the file that reaches a limit). -/
theorem needFilesRepoLimited_behavior (m : Model) (repo : RepoID)
    (maxFiles maxBlocks : Int) :
    (repo ∉ m.repos →
      m.NeedFilesRepoLimited repo maxFiles maxBlocks = NeedFilesResult.nilSlice) ∧
    (repo ∈ m.repos → maxFiles < 0 →
      m.NeedFilesRepoLimited repo maxFiles maxBlocks = NeedFilesResult.crash) ∧
    (repo ∈ m.repos → 0 ≤ maxFiles →
      ∀ l, m.NeedFilesRepoLimited repo maxFiles maxBlocks = NeedFilesResult.files l →
        (0 < maxFiles → (l.length : Int) ≤ maxFiles) ∧
        (maxFiles = 0 → maxBlocks ≤ 0 → l = (m.repoFiles repo).needView LocalNodeID) ∧
        (0 < maxBlocks →
          (totalBlocks l : Int) ≤ maxBlocks + (lastBlocks l : Int))) := by
  refine ⟨fun h => by simp [Model.NeedFilesRepoLimited, h],
    fun h hneg => by simp [Model.NeedFilesRepoLimited, h, hneg],
    fun h hnn l hl => ?_⟩
  simp only [Model.NeedFilesRepoLimited, if_pos h, if_neg (by omega : ¬ maxFiles < 0),
    NeedFilesResult.files.injEq] at hl
  refine ⟨fun hf => ?_, fun hf hb => ?_, fun hb => ?_⟩
  · rw [← hl]
    exact needLimitedLoop_length maxFiles maxBlocks hf _ [] 0 (by simpa using hf)
  · rw [← hl, needLimitedLoop_noLimit maxFiles maxBlocks (by omega) hb]
    simp
  · rw [← hl]
    exact needLimitedLoop_blocks maxFiles maxBlocks hb _ [] 0 (by simp [totalBlocks])
      (by simpa using hb)

/-- C10 witness: limiting to two files on a three-file need view returns
exactly the first two files, within the bound. -/
theorem needFilesRepoLimited_behavior_witness :
    "r" ∈ needModel.repos ∧ (0 : Int) ≤ 2 ∧
    needModel.NeedFilesRepoLimited "r" 2 0 = NeedFilesResult.files needResult ∧
    (0 : Int) < 2 ∧
    ((needResult.length : Int) ≤ 2) := by
  refine ⟨by decide, by decide, by decide, by decide, ?_⟩
  exact ((needFilesRepoLimited_behavior needModel "r" 2 0).2.2 (by decide) (by decide)
    needResult (by decide)).1 (by decide)

/-- Swap removal is a permutation-preserving removal of the head. -/
lemma swapRemove_perm (f : FileInfo) (rest : List FileInfo) :
    (swapRemove (f :: rest)).Perm rest := by
  rcases List.eq_nil_or_concat rest with h | ⟨as, a, h⟩
  · subst h
    simp [swapRemove]
  · subst h
    have h1 : (as ++ [a]) ≠ ([] : List FileInfo) := by simp
    simp only [List.concat_eq_append, swapRemove, if_neg h1, List.getLastD_concat,
      List.dropLast_concat]
    exact @List.perm_append_comm _ [a] as

/-- The survivors of the Index filtering loop are, as a multiset, exactly
the entries not matching the ignore patterns. -/
lemma tickAndFilter_perm (ign : Patterns) :
    ∀ n c (l : List FileInfo), l.length ≤ n →
      ((tickAndFilter ign c l).2).Perm (l.filter fun f => !ign.Match f.name) := by
  intro n
  induction n with
  | zero =>
    intro c l h
    have hl : l = [] := List.eq_nil_of_length_eq_zero (Nat.le_zero.mp h)
    subst hl
    simp [tickAndFilter]
  | succ n ih =>
    intro c l h
    match l with
    | [] => simp [tickAndFilter]
    | f :: rest =>
      have hr : rest.length ≤ n := by
        simp only [List.length_cons] at h
        omega
      by_cases hm : ign.Match f.name
      · have hlen : (swapRemove (f :: rest)).length ≤ n := by
          rw [swapRemove_length_cons]
          exact hr
        have hp := ih (Lamport.tick c f.version) (swapRemove (f :: rest)) hlen
        have hq : ((swapRemove (f :: rest)).filter fun g => !ign.Match g.name).Perm
            (rest.filter fun g => !ign.Match g.name) := (swapRemove_perm f rest).filter _
        simp only [tickAndFilter, if_pos hm]
        rw [List.filter_cons_of_neg (by simp [hm])]
        exact hp.trans hq
      · have hp := ih (Lamport.tick c f.version) rest hr
        simp only [tickAndFilter, if_neg hm]
        rw [List.filter_cons_of_pos (by simp [hm])]
        exact hp.cons f

/-- The filtering loop never rewinds the clock. -/
lemma tickAndFilter_clock_le (ign : Patterns) :
    ∀ n c (l : List FileInfo), l.length ≤ n → c ≤ (tickAndFilter ign c l).1 := by
  intro n
  induction n with
  | zero =>
    intro c l h
    have hl : l = [] := List.eq_nil_of_length_eq_zero (Nat.le_zero.mp h)
    subst hl
    simp [tickAndFilter]
  | succ n ih =>
    intro c l h
    match l with
    | [] => simp [tickAndFilter]
    | f :: rest =>
      have hr : rest.length ≤ n := by
        simp only [List.length_cons] at h
        omega
      have htick : c ≤ Lamport.tick c f.version := by
        have h1 : c ≤ Nat.max c f.version := Nat.le_max_left c f.version
        unfold Lamport.tick
        omega
      by_cases hm : ign.Match f.name
      · have hlen : (swapRemove (f :: rest)).length ≤ n := by
          rw [swapRemove_length_cons]
          exact hr
        simp only [tickAndFilter, if_pos hm]
        exact le_trans htick (ih (Lamport.tick c f.version) (swapRemove (f :: rest)) hlen)
      · simp only [tickAndFilter, if_neg hm]
        exact le_trans htick (ih (Lamport.tick c f.version) rest hr)

/-- Every entry visited by the filtering loop, kept or dropped, has its
version absorbed: the final clock strictly dominates it. -/
lemma tickAndFilter_clock_gt (ign : Patterns) :
    ∀ n c (l : List FileInfo), l.length ≤ n →
      ∀ f ∈ l, f.version < (tickAndFilter ign c l).1 := by
  intro n
  induction n with
  | zero =>
    intro c l h
    have hl : l = [] := List.eq_nil_of_length_eq_zero (Nat.le_zero.mp h)
    subst hl
    simp
  | succ n ih =>
    intro c l h
    match l with
    | [] => simp
    | f :: rest =>
      have hr : rest.length ≤ n := by
        simp only [List.length_cons] at h
        omega
      intro g hg
      by_cases hm : ign.Match f.name
      · have hlen : (swapRemove (f :: rest)).length ≤ n := by
          rw [swapRemove_length_cons]
          exact hr
        simp only [tickAndFilter, if_pos hm]
        rcases List.mem_cons.mp hg with hgf | hgrest
        · subst hgf
          have h1 : g.version < Lamport.tick c g.version := by
            have h2 : g.version ≤ Nat.max c g.version := Nat.le_max_right c g.version
            unfold Lamport.tick
            omega
          exact lt_of_lt_of_le h1
            (tickAndFilter_clock_le ign n (Lamport.tick c g.version)
              (swapRemove (g :: rest)) hlen)
        · have hmem : g ∈ swapRemove (f :: rest) :=
            ((swapRemove_perm f rest).mem_iff).mpr hgrest
          exact ih (Lamport.tick c f.version) (swapRemove (f :: rest)) hlen g hmem
      · simp only [tickAndFilter, if_neg hm]
        rcases List.mem_cons.mp hg with hgf | hgrest
        · subst hgf
          have h1 : g.version < Lamport.tick c g.version := by
            have h2 : g.version ≤ Nat.max c g.version := Nat.le_max_right c g.version
            unfold Lamport.tick
            omega
          exact lt_of_lt_of_le h1
            (tickAndFilter_clock_le ign n (Lamport.tick c g.version) rest hr)
        · exact ih (Lamport.tick c f.version) rest hr g hgrest

/-- localVersion assignment does not change the entries otherwise. -/
lemma map_erase_assignLocalVers (b : Nat) (l : List FileInfo) :
    (assignLocalVers b l).map eraseLocalVersion = l.map eraseLocalVersion := by
  induction l generalizing b with
  | nil => rfl
  | cons f t ih => simp [assignLocalVers, eraseLocalVersion, ih]

/-- C6: an authorized Index on a known repo absorbs every incoming entry's
version into the lamport clock (the new clock strictly dominates them all),
drops exactly the entries whose names match the repo's current ignore
patterns, hands exactly the surviving entries — as a set, up to the
localVersion numbers Replace assigns — to Replace as the node's new
replica, and emits one RemoteIndexUpdated event whose items field is the
number of surviving entries (0 when all were ignored) and whose version
field is the replica's new watermark. -/
theorem index_authorized_behavior (m : Model) (n : NodeID) (repo : RepoID)
    (fs : List FileInfo) (hsh : repo ∈ m.nodeRepos n) (hkn : repo ∈ m.repos) :
    ∃ m2 items ver,
      m.Index n repo fs = some (m2, [Event.remoteIndexUpdated n repo items ver]) ∧
      items = (fs.filter fun f => !(m.repoIgnores repo).Match f.name).length ∧
      ver = (m2.repoFiles repo).localVer n ∧
      (((m2.repoFiles repo).replica n).map eraseLocalVersion).Perm
        ((fs.filter fun f => !(m.repoIgnores repo).Match f.name).map eraseLocalVersion) ∧
      (∀ f ∈ fs, f.version < m2.clock) := by
  have hperm := tickAndFilter_perm (m.repoIgnores repo) fs.length m.clock fs le_rfl
  simp only [Model.Index, if_pos hsh, if_pos hkn]
  refine ⟨_, _, _, rfl, hperm.length_eq, ?_, ?_, ?_⟩
  · simp
  · simp only [SetState.replace]
    simp only [if_pos rfl, eq_self_iff_true, if_true]
    rw [map_erase_assignLocalVers]
    exact hperm.map eraseLocalVersion
  · intro f hf
    exact tickAndFilter_clock_gt (m.repoIgnores repo) fs.length m.clock fs le_rfl f hf

/-- C6 witness: with ignore patterns matching x, an authorized Index with
one x entry and one a entry keeps exactly a, with one event. -/
theorem index_authorized_behavior_witness :
    "r" ∈ idxModel.nodeRepos 1 ∧ "r" ∈ idxModel.repos ∧
    ∃ m2 items ver,
      idxModel.Index 1 "r" idxFiles = some (m2, [Event.remoteIndexUpdated 1 "r" items ver]) ∧
      items = (idxFiles.filter fun f => !(idxModel.repoIgnores "r").Match f.name).length ∧
      ver = (m2.repoFiles "r").localVer 1 ∧
      (((m2.repoFiles "r").replica 1).map eraseLocalVersion).Perm
        ((idxFiles.filter fun f => !(idxModel.repoIgnores "r").Match f.name).map
          eraseLocalVersion) ∧
      (∀ f ∈ idxFiles, f.version < m2.clock) := by
  exact ⟨by decide, by decide,
    index_authorized_behavior idxModel 1 "r" idxFiles (by decide) (by decide)⟩

/-- Appending an IndexUpdate preserves the trace shape. -/
lemma headIndexRest_append (l : List (MsgKind × List FileInfo)) (b : List FileInfo)
    (h : headIndexRest l) : headIndexRest (l ++ [(MsgKind.indexUpdate, b)]) := by
  obtain ⟨b0, rest, hl, hrest⟩ := h
  refine ⟨b0, rest ++ [(MsgKind.indexUpdate, b)], by simp [hl], ?_⟩
  intro p hp
  rcases List.mem_append.mp hp with h1 | h1
  · exact hrest p h1
  · rw [List.mem_singleton.mp h1]

/-- One sender step from an invariant state either keeps the invariant or
stops the walk with the error flag set and a well-shaped trace. -/
lemma sendStep_preserves (sendOk : Nat → Bool) (ign : Patterns) (minLocalVer : Nat)
    (st : SendSt) (f : FileInfo) (h : senderInv st) :
    senderInv (sendStep sendOk ign minLocalVer st f).1 ∨
    ((sendStep sendOk ign minLocalVer st f).2 = false ∧
      (sendStep sendOk ign minLocalVer st f).1.err = true ∧
      headIndexRest (sendStep sendOk ign minLocalVer st f).1.sends) := by
  unfold sendStep
  by_cases h0 : f.localVersion ≤ minLocalVer
  · left
    simpa [h0] using h
  · simp only [if_neg h0]
    set st1 : SendSt :=
      if st.maxLocalVer < f.localVersion then { st with maxLocalVer := f.localVersion }
      else st with hst1
    have h1 : senderInv st1 ∧ st1.err = st.err ∧ st1.initial = st.initial ∧
        st1.sends = st.sends ∧ st1.batch = st.batch := by
      rw [hst1]
      split
      · refine ⟨?_, rfl, rfl, rfl, rfl⟩
        rcases h with ⟨he, hi, hs⟩ | ⟨he, hi, hir⟩
        · exact Or.inl ⟨he, hi, hs⟩
        · exact Or.inr ⟨he, hi, hir⟩
      · exact ⟨h, rfl, rfl, rfl, rfl⟩
    by_cases hm : ign.Match f.name
    · left
      simpa [hm] using h1.1
    · simp only [if_neg (by simp [hm] : ¬ ign.Match f.name = true)]
      by_cases hfull : st1.batch.length = indexBatchSize ∨ st1.currentBatchSize > indexTargetSize
      · simp only [if_pos hfull]
        have hshape : headIndexRest (st1.sends ++
            [(if st1.initial then MsgKind.index else MsgKind.indexUpdate, st1.batch)]) := by
          rcases h with ⟨he, hi, hs⟩ | ⟨he, hi, hir⟩
          · rw [h1.2.2.2.1, hs, if_pos (h1.2.2.1.trans hi)]
            exact ⟨st1.batch, [], rfl, by simp⟩
          · rw [h1.2.2.2.1, if_neg (by rw [h1.2.2.1, hi]; simp)]
            exact headIndexRest_append st.sends st1.batch hir
        have hef : st.err = false := by
          rcases h with ⟨he, h2, h3⟩ | ⟨he, h2, h3⟩ <;> exact he
        by_cases hok : sendOk st1.sends.length = true
        · simp only [if_pos hok]
          exact Or.inl (Or.inr ⟨h1.2.1.trans hef, rfl, hshape⟩)
        · simp only [if_neg hok]
          exact Or.inr ⟨trivial, trivial, hshape⟩
      · simp only [if_neg hfull]
        left
        rcases h with ⟨he, hi, hs⟩ | ⟨he, hi, hir⟩
        · exact Or.inl ⟨h1.2.1.trans he, h1.2.2.1.trans hi, h1.2.2.2.1.trans hs⟩
        · exact Or.inr ⟨h1.2.1.trans he, h1.2.2.1.trans hi, h1.2.2.2.1 ▸ hir⟩

/-- Walking the local replica from an invariant state ends in an invariant
state or in an error state with a well-shaped trace. -/
lemma walk_senderFinal (sendOk : Nat → Bool) (ign : Patterns) (minLocalVer : Nat) :
    ∀ (l : List FileInfo) (st : SendSt), senderInv st →
      senderInv (walkWithStop (sendStep sendOk ign minLocalVer) st l) ∨
      ((walkWithStop (sendStep sendOk ign minLocalVer) st l).err = true ∧
        headIndexRest (walkWithStop (sendStep sendOk ign minLocalVer) st l).sends) := by
  intro l
  induction l with
  | nil =>
    intro st h
    left
    simpa [walkWithStop] using h
  | cons x xs ih =>
    intro st h
    simp only [walkWithStop]
    rcases sendStep_preserves sendOk ign minLocalVer st x h with h1 | ⟨hc, he, hir⟩
    · by_cases hcont : (sendStep sendOk ign minLocalVer st x).2 = true
      · rw [if_pos hcont]
        exact ih _ h1
      · rw [if_neg hcont]
        left
        exact h1
    · rw [if_neg (by simp [hc])]
      right
      exact ⟨he, hir⟩

/-- C8: sendIndexTo called with initial = true sends at least one message,
the first message handed to the connection is an Index (sent even when its
batch is empty because no entry qualified), and every later message of the
call is an IndexUpdate. -/
theorem sendIndexTo_initial_sends_index (minLocalVer : Nat) (sendOk : Nat → Bool)
    (haveList : List FileInfo) (ign : Patterns) :
    (sendIndexTo true minLocalVer sendOk haveList ign).2.2 ≠ [] ∧
    headIndexRest (sendIndexTo true minLocalVer sendOk haveList ign).2.2 := by
  have hshape : headIndexRest (sendIndexTo true minLocalVer sendOk haveList ign).2.2 := by
    unfold sendIndexTo
    set st0 : SendSt :=
      { batch := [], currentBatchSize := 0, maxLocalVer := 0, initial := true,
        err := false, sends := [] } with hst0
    have h0 : senderInv st0 := Or.inl ⟨rfl, rfl, rfl⟩
    set st := walkWithStop (sendStep sendOk ign minLocalVer) st0 haveList with hst
    rcases walk_senderFinal sendOk ign minLocalVer haveList st0 h0 with hinv | ⟨he, hir⟩
    · rcases hinv with ⟨he, hi, hs⟩ | ⟨he, hi, hir⟩
      · rw [if_pos ⟨hi, he⟩]
        rw [hs]
        exact ⟨st.batch, [], rfl, by simp⟩
      · rw [if_neg (by simp [hi])]
        by_cases hb : st.batch.length > 0
        · rw [if_pos ⟨hb, he⟩]
          exact headIndexRest_append st.sends st.batch hir
        · rw [if_neg (by simp [hb])]
          exact hir
    · rw [if_neg (by simp [he]), if_neg (by simp [he])]
      exact hir
  refine ⟨?_, hshape⟩
  obtain ⟨b, rest, hl, _⟩ := hshape
  simp [hl]

/-- Names outside the subpath are skipped without any state change while no
subpath name has been seen. -/
lemma scanWalk_skip (dir sub : String) (ign : Patterns) (stat : String → StatRes) :
    ∀ (l1 : List FileInfo) (st : ScanSt) (r : List FileInfo),
      st.seenPfx = false → (∀ g ∈ l1, hasPfx sub g.name = false) →
      walkWithStop (scanPass2Step dir sub ign stat) st (l1 ++ r) =
        walkWithStop (scanPass2Step dir sub ign stat) st r := by
  intro l1
  induction l1 with
  | nil =>
    intro st r hseen hall
    rfl
  | cons g t ih =>
    intro st r hseen hall
    have hg := hall g (List.mem_cons_self g t)
    have hstep : scanPass2Step dir sub ign stat st g = (st, !st.seenPfx) := by
      simp [scanPass2Step, hg]
    simp only [List.cons_append, walkWithStop, hstep, hseen]
    exact ih st r hseen fun x hx => hall x (List.mem_cons_of_mem g hx)

/-- A name under the subpath never stops the walk. -/
lemma scanStep_prefix_cont (dir sub : String) (ign : Patterns) (stat : String → StatRes)
    (st : ScanSt) (f : FileInfo) (h : hasPfx sub f.name = true) :
    (scanPass2Step dir sub ign stat st f).2 = true := by
  simp only [scanPass2Step]
  rw [if_neg (by simp [h])]
  split_ifs <;> rfl

/-- Walking over a block of subpath names processes it entirely. -/
lemma scanWalk_block (dir sub : String) (ign : Patterns) (stat : String → StatRes) :
    ∀ (l2 : List FileInfo) (st : ScanSt) (r : List FileInfo),
      (∀ g ∈ l2, hasPfx sub g.name = true) →
      walkWithStop (scanPass2Step dir sub ign stat) st (l2 ++ r) =
        walkWithStop (scanPass2Step dir sub ign stat)
          (l2.foldl (fun s g => (scanPass2Step dir sub ign stat s g).1) st) r := by
  intro l2
  induction l2 with
  | nil =>
    intro st r hall
    rfl
  | cons g t ih =>
    intro st r hall
    have hg := hall g (List.mem_cons_self g t)
    simp only [List.cons_append, walkWithStop, List.foldl_cons]
    rw [if_pos (scanStep_prefix_cont dir sub ign stat st g hg)]
    exact ih _ r fun x hx => hall x (List.mem_cons_of_mem g hx)

/-- One scan step only appends to the flat list of written-back entries. -/
lemma scanStep_flat_mono (dir sub : String) (ign : Patterns) (stat : String → StatRes)
    (st : ScanSt) (f : FileInfo) (x : FileInfo)
    (hx : x ∈ st.written ++ st.batch) :
    x ∈ (scanPass2Step dir sub ign stat st f).1.written ++
      (scanPass2Step dir sub ign stat st f).1.batch := by
  simp only [scanPass2Step]
  split_ifs <;> simp_all <;> tauto

/-- Walking never drops an already written-back entry. -/
lemma scanWalk_flat_mono (dir sub : String) (ign : Patterns) (stat : String → StatRes) :
    ∀ (l : List FileInfo) (st : ScanSt) (x : FileInfo),
      x ∈ st.written ++ st.batch →
      x ∈ (walkWithStop (scanPass2Step dir sub ign stat) st l).written ++
        (walkWithStop (scanPass2Step dir sub ign stat) st l).batch := by
  intro l
  induction l with
  | nil =>
    intro st x hx
    simpa [walkWithStop] using hx
  | cons g t ih =>
    intro st x hx
    have hx2 := scanStep_flat_mono dir sub ign stat st g x hx
    simp only [walkWithStop]
    by_cases hc : (scanPass2Step dir sub ign stat st g).2 = true
    · rw [if_pos hc]
      exact ih _ x hx2
    · rw [if_neg hc]
      exact hx2

/-- One scan step never rewinds the clock. -/
lemma scanStep_clock_le (dir sub : String) (ign : Patterns) (stat : String → StatRes)
    (st : ScanSt) (f : FileInfo) :
    st.clock ≤ (scanPass2Step dir sub ign stat st f).1.clock := by
  have h1 : st.clock ≤ Nat.max st.clock f.version + 1 := by
    have h2 : st.clock ≤ Nat.max st.clock f.version := Nat.le_max_left st.clock f.version
    omega
  simp only [scanPass2Step, Lamport.tick]
  split_ifs <;> simp_all

/-- Folding a block of scan steps never rewinds the clock. -/
lemma scanFold_clock_le (dir sub : String) (ign : Patterns) (stat : String → StatRes) :
    ∀ (l : List FileInfo) (st : ScanSt),
      st.clock ≤ (l.foldl (fun s g => (scanPass2Step dir sub ign stat s g).1) st).clock := by
  intro l
  induction l with
  | nil =>
    intro st
    exact le_refl _
  | cons g t ih =>
    intro st
    simp only [List.foldl_cons]
    exact le_trans (scanStep_clock_le dir sub ign stat st g) (ih _)

/-- A live, non-ignored subpath entry whose stat reports NotExist is written
back as a Deleted tombstone: same name, Deleted flag added, unchanged
modified time, version ticked from the clock at that point. -/
lemma scanStep_qualifying (dir sub : String) (ign : Patterns) (stat : String → StatRes)
    (st : ScanSt) (f : FileInfo)
    (hp : hasPfx sub f.name = true) (hd : IsDeleted f.flags = false)
    (hi : IsInvalid f.flags = false) (hm : ign.Match f.name = false)
    (hs : stat (dir ++ "/" ++ f.name) = StatRes.notExist) :
    ({ name := f.name, flags := f.flags ||| FlagDeleted, modified := f.modified,
       version := Lamport.tick st.clock f.version, localVersion := 0,
       blocks := ([] : List BlockInfo) } : FileInfo) ∈
      (scanPass2Step dir sub ign stat st f).1.written ++
        (scanPass2Step dir sub ign stat st f).1.batch := by
  simp only [scanPass2Step]
  rw [if_neg (by simp [hp]), if_neg (by simp [hd]), if_neg (by simp [hi])]
  split_ifs <;> simp_all

/-- C4: during the second pass of ScanRepoSub, every local entry under the
scanned subpath that is not Deleted, not Invalid, not matched by the
current ignore patterns, and whose stat reports NotExist, is written back
with the Deleted flag added, unchanged modified time, and version equal to
the lamport tick (at the clock value c reached when it is processed) of its
previous version.  The replica traversal is lexicographic, so the names
under the subpath form one contiguous block l2, possibly preceded by
other names l1 and followed by other names l3. -/
theorem scanPass2_deletes (dir sub : String) (ign : Patterns) (stat : String → StatRes)
    (clock0 : Nat) (l1 l2 l3 : List FileInfo) (f : FileInfo)
    (h1 : ∀ g ∈ l1, hasPfx sub g.name = false)
    (h2 : ∀ g ∈ l2, hasPfx sub g.name = true)
    (hf : f ∈ l2)
    (hd : IsDeleted f.flags = false) (hi : IsInvalid f.flags = false)
    (hm : ign.Match f.name = false)
    (hs : stat (dir ++ "/" ++ f.name) = StatRes.notExist) :
    ∃ c, clock0 ≤ c ∧
      ({ name := f.name, flags := f.flags ||| FlagDeleted, modified := f.modified,
         version := Lamport.tick c f.version, localVersion := 0,
         blocks := ([] : List BlockInfo) } : FileInfo) ∈
        (scanPass2 dir sub ign stat clock0 (l1 ++ l2 ++ l3)).2 := by
  obtain ⟨a, b, rfl⟩ := List.append_of_mem hf
  have hpf := h2 f (by simp)
  have ha : ∀ g ∈ a, hasPfx sub g.name = true := fun g hg => h2 g (by simp [hg])
  unfold scanPass2
  rw [List.append_assoc]
  rw [scanWalk_skip dir sub ign stat l1 _ _ rfl h1]
  rw [List.append_assoc, List.cons_append]
  rw [scanWalk_block dir sub ign stat a _ _ ha]
  set st1 := a.foldl (fun s g => (scanPass2Step dir sub ign stat s g).1)
    { clock := clock0, batch := [], written := [], seenPfx := false } with hst1
  refine ⟨st1.clock, ?_, ?_⟩
  · rw [hst1]
    exact scanFold_clock_le dir sub ign stat a
      { clock := clock0, batch := [], written := [], seenPfx := false }
  · simp only [walkWithStop]
    rw [if_pos (scanStep_prefix_cont dir sub ign stat st1 f hpf)]
    exact scanWalk_flat_mono dir sub ign stat (b ++ l3) _ _
      (scanStep_qualifying dir sub ign stat st1 f hpf hd hi hm hs)

/-- C4 witness: a single live entry with an empty subpath, no ignores and a
vanished file is written back as a Deleted tombstone. -/
theorem scanPass2_deletes_witness :
    (∀ g ∈ ([] : List FileInfo), hasPfx "" g.name = false) ∧
    (∀ g ∈ [scanFile], hasPfx "" g.name = true) ∧
    IsDeleted scanFile.flags = false ∧ IsInvalid scanFile.flags = false ∧
    (∃ c, 0 ≤ c ∧
      ({ name := scanFile.name, flags := scanFile.flags ||| FlagDeleted,
         modified := scanFile.modified, version := Lamport.tick c scanFile.version,
         localVersion := 0, blocks := ([] : List BlockInfo) } : FileInfo) ∈
        (scanPass2 "" "" ⟨fun _ => false⟩ (fun _ => StatRes.notExist) 0
          ([] ++ [scanFile] ++ [])).2) := by
  refine ⟨by decide, by decide, by decide, by decide, ?_⟩
  exact scanPass2_deletes "" "" ⟨fun _ => false⟩ (fun _ => StatRes.notExist) 0
    [] [scanFile] [] scanFile (by decide) (by decide) (by decide) (by decide)
    (by decide) (by decide) (by decide)

/-- GraphInv only reads the repos list and the two graph maps. -/
lemma graphInv_congr (m m2 : Model) (h1 : m2.repos = m.repos)
    (h2 : m2.repoNodes = m.repoNodes) (h3 : m2.nodeRepos = m.nodeRepos)
    (h : GraphInv m) : GraphInv m2 := by
  constructor
  · intro r n
    rw [h2, h3]
    exact h.1 r n
  · intro x r
    rw [h3, h1]
    exact h.2 x r

/-- Membership after AddRepo's nodeRepos fold: a repo is listed for a node
afterwards exactly when it was before or it is the added repo and the node
is in the added repo's node list. -/
lemma mem_addRepo_nodeRepos (rid : RepoID) :
    ∀ (ns : List NodeID) (nr : NodeID → List RepoID) (x : NodeID) (r : RepoID),
      (r ∈ ns.foldl (fun a n => fun y => if y = n then a y ++ [rid] else a y) nr x ↔
        r ∈ nr x ∨ (r = rid ∧ x ∈ ns)) := by
  intro ns
  induction ns with
  | nil =>
    intro nr x r
    simp
  | cons n t ih =>
    intro nr x r
    simp only [List.foldl_cons]
    rw [ih]
    by_cases hx : x = n
    · subst hx
      rw [if_pos rfl]
      simp only [List.mem_append, List.mem_singleton, List.mem_cons]
      tauto
    · rw [if_neg hx]
      simp only [List.mem_cons]
      constructor
      · rintro (hc | ⟨h1, h2⟩)
        · exact Or.inl hc
        · exact Or.inr ⟨h1, Or.inr h2⟩
      · rintro (hc | ⟨h1, h2 | h2⟩)
        · exact Or.inl hc
        · exact absurd h2 hx
        · exact Or.inr ⟨h1, h2⟩

/-- A fresh AddRepo preserves the graph invariant. -/
lemma graphInv_addRepo (m : Model) (cfg : RepositoryConfiguration) (m2 : Model)
    (hfresh : cfg.id ∉ m.repos) (h : m.AddRepo cfg = some m2) (hinv : GraphInv m) :
    GraphInv m2 := by
  by_cases hcond : (m.started = true ∨ cfg.id = "")
  · unfold Model.AddRepo at h
    rw [if_pos hcond] at h
    exact absurd h (by simp)
  · unfold Model.AddRepo at h
    rw [if_neg hcond, if_neg hfresh] at h
    simp only [Option.some.injEq] at h
    subst h
    constructor
    · intro r n
      simp only
      rw [mem_addRepo_nodeRepos]
      by_cases hr : r = cfg.id
      · rw [if_pos hr]
        have hnot : r ∉ m.nodeRepos n := fun hc => hfresh (hr ▸ hinv.2 n r hc)
        constructor
        · intro hn
          exact Or.inr ⟨hr, hn⟩
        · rintro (hc | ⟨h1, h2⟩)
          · exact absurd hc hnot
          · exact h2
      · rw [if_neg hr]
        constructor
        · intro hn
          exact Or.inl ((hinv.1 r n).mp hn)
        · rintro (hc | ⟨h1, h2⟩)
          · exact (hinv.1 r n).mpr hc
          · exact absurd h1 hr
    · intro x r hr
      simp only at hr ⊢
      rw [mem_addRepo_nodeRepos] at hr
      rcases hr with hc | ⟨h1, h2⟩
      · exact List.mem_append_left _ (hinv.2 x r hc)
      · subst h1
        simp

/-- The config-extension half of the node loop does not touch the graph. -/
lemma ccExtendCfg_fields (m : Model) (cn : CCNode) :
    (ccExtendCfg m cn).repos = m.repos ∧ (ccExtendCfg m cn).repoNodes = m.repoNodes ∧
      (ccExtendCfg m cn).nodeRepos = m.nodeRepos := by
  unfold ccExtendCfg
  split
  · exact ⟨rfl, rfl, rfl⟩
  · exact ⟨rfl, rfl, rfl⟩

/-- ccHandleNode preserves the graph invariant and the repo list. -/
lemma graphInv_ccHandleNode (m : Model) (rid : RepoID) (cn : CCNode)
    (hrid : rid ∈ m.repos) (hinv : GraphInv m) :
    GraphInv (ccHandleNode m rid cn) ∧ (ccHandleNode m rid cn).repos = m.repos := by
  have hfields := ccExtendCfg_fields m cn
  have hinv1 : GraphInv (ccExtendCfg m cn) :=
    graphInv_congr m _ hfields.1 hfields.2.1 hfields.2.2 hinv
  unfold ccHandleNode
  split_ifs with hguard
  · exact ⟨hinv1, hfields.1⟩
  · refine ⟨⟨?_, ?_⟩, hfields.1⟩
    · intro r n
      simp only
      by_cases hr : r = rid
      · subst hr
        rw [if_pos rfl]
        by_cases hn : n = cn.id
        · subst hn
          simp
        · rw [if_neg hn]
          simp only [List.mem_append, List.mem_singleton]
          constructor
          · rintro (hc | hc)
            · exact (hinv1.1 r n).mp hc
            · exact absurd hc hn
          · intro hc
            exact Or.inl ((hinv1.1 r n).mpr hc)
      · rw [if_neg hr]
        by_cases hn : n = cn.id
        · rw [if_pos hn]
          simp only [List.mem_append, List.mem_singleton]
          constructor
          · intro hc
            exact Or.inl ((hinv1.1 r n).mp hc)
          · rintro (hc | hc)
            · exact (hinv1.1 r n).mpr hc
            · exact absurd hc hr
        · rw [if_neg hn]
          exact hinv1.1 r n
    · intro x r hr
      simp only at hr ⊢
      rw [hfields.1]
      by_cases hx : x = cn.id
      · rw [if_pos hx] at hr
        rcases List.mem_append.mp hr with hc | hc
        · exact (hfields.1 ▸ hinv1.2 x r hc)
        · rw [List.mem_singleton.mp hc]
          exact hrid
      · rw [if_neg hx] at hr
        exact (hfields.1 ▸ hinv1.2 x r hr)

/-- The inner node fold of ClusterConfig preserves the graph invariant and
the repo list. -/
lemma graphInv_ccFold (rid : RepoID) :
    ∀ (ns : List CCNode) (m : Model), rid ∈ m.repos → GraphInv m →
      GraphInv (ns.foldl (fun a cn => ccHandleNode a rid cn) m) ∧
        (ns.foldl (fun a cn => ccHandleNode a rid cn) m).repos = m.repos := by
  intro ns
  induction ns with
  | nil =>
    intro m hrid hinv
    exact ⟨hinv, rfl⟩
  | cons cn t ih =>
    intro m hrid hinv
    simp only [List.foldl_cons]
    have h1 := graphInv_ccHandleNode m rid cn hrid hinv
    have h2 := ih (ccHandleNode m rid cn) (h1.2 ▸ hrid) h1.1
    exact ⟨h2.1, h2.2.trans h1.2⟩

/-- ccHandleRepo preserves the graph invariant and the repo list. -/
lemma graphInv_ccHandleRepo (m : Model) (cr : CCRepo) (hinv : GraphInv m) :
    GraphInv (ccHandleRepo m cr) ∧ (ccHandleRepo m cr).repos = m.repos := by
  unfold ccHandleRepo
  split_ifs with hin
  · exact graphInv_ccFold cr.id cr.nodes m hin hinv
  · exact ⟨hinv, rfl⟩

/-- ClusterConfig preserves the graph invariant. -/
lemma graphInv_clusterConfig (m : Model) (n : NodeID) (cm : ClusterConfigMessage)
    (hinv : GraphInv m) : GraphInv (m.ClusterConfig n cm) := by
  unfold Model.ClusterConfig
  split_ifs
  · have haux : ∀ (crs : List CCRepo) (m0 : Model), GraphInv m0 →
        GraphInv (crs.foldl ccHandleRepo m0) := by
      intro crs
      induction crs with
      | nil => intro m0 h0; exact h0
      | cons cr t ih =>
        intro m0 h0
        simp only [List.foldl_cons]
        exact ih (ccHandleRepo m0 cr) (graphInv_ccHandleRepo m0 cr h0).1
    exact haux cm.repositories m hinv
  · exact hinv

/-- Index leaves the repo list and the sharing graph untouched. -/
lemma index_graph_eq (m : Model) (n : NodeID) (r : RepoID) (fs : List FileInfo)
    (m2 : Model) (ev : List Event) (h : m.Index n r fs = some (m2, ev)) :
    m2.repos = m.repos ∧ m2.repoNodes = m.repoNodes ∧ m2.nodeRepos = m.nodeRepos := by
  unfold Model.Index at h
  split_ifs at h
  · simp only [Option.some.injEq, Prod.mk.injEq] at h
    rw [← h.1]
    exact ⟨rfl, rfl, rfl⟩
  · simp only [Option.some.injEq, Prod.mk.injEq] at h
    rw [← h.1]
    exact ⟨rfl, rfl, rfl⟩

/-- IndexUpdate leaves the repo list and the sharing graph untouched. -/
lemma indexUpdate_graph_eq (m : Model) (n : NodeID) (r : RepoID) (fs : List FileInfo)
    (m2 : Model) (ev : List Event) (h : m.IndexUpdate n r fs = some (m2, ev)) :
    m2.repos = m.repos ∧ m2.repoNodes = m.repoNodes ∧ m2.nodeRepos = m.nodeRepos := by
  unfold Model.IndexUpdate at h
  split_ifs at h
  · simp only [Option.some.injEq, Prod.mk.injEq] at h
    rw [← h.1]
    exact ⟨rfl, rfl, rfl⟩
  · simp only [Option.some.injEq, Prod.mk.injEq] at h
    rw [← h.1]
    exact ⟨rfl, rfl, rfl⟩

/-- AddConnection leaves the repo list and the sharing graph untouched. -/
lemma addConnection_graph_eq (m : Model) (n : NodeID) (m2 : Model)
    (h : m.AddConnection n = some m2) :
    m2.repos = m.repos ∧ m2.repoNodes = m.repoNodes ∧ m2.nodeRepos = m.nodeRepos := by
  unfold Model.AddConnection at h
  split_ifs at h
  simp only [Option.some.injEq] at h
  rw [← h]
  exact ⟨rfl, rfl, rfl⟩

/-- setState leaves the repo list and the sharing graph untouched. -/
lemma setState_graph_eq (m : Model) (r : RepoID) (s : RepoState) (now : Nat) :
    (m.setState r s now).1.repos = m.repos ∧
    (m.setState r s now).1.repoNodes = m.repoNodes ∧
    (m.setState r s now).1.nodeRepos = m.nodeRepos := by
  simp only [Model.setState]
  split_ifs
  · exact ⟨rfl, rfl, rfl⟩
  · exact ⟨rfl, rfl, rfl⟩

/-- Every restricted step preserves the graph invariant. -/
lemma graphInv_stepD (m m2 : Model) (h : StepD m m2) (hinv : GraphInv m) :
    GraphInv m2 := by
  cases h with
  | addRepo cfg m2 hfresh hstep => exact graphInv_addRepo m cfg m2 hfresh hstep hinv
  | addConnection n m2 hstep =>
    have he := addConnection_graph_eq m n m2 hstep
    exact graphInv_congr m m2 he.1 he.2.1 he.2.2 hinv
  | clusterConfig n cm => exact graphInv_clusterConfig m n cm hinv
  | close n => exact graphInv_congr m _ rfl rfl rfl hinv
  | index n r fs m2 ev hstep =>
    have he := index_graph_eq m n r fs m2 ev hstep
    exact graphInv_congr m m2 he.1 he.2.1 he.2.2 hinv
  | indexUpdate n r fs m2 ev hstep =>
    have he := indexUpdate_graph_eq m n r fs m2 ev hstep
    exact graphInv_congr m m2 he.1 he.2.1 he.2.2 hinv
  | setState r s now =>
    have he := setState_graph_eq m r s now
    exact graphInv_congr m _ he.1 he.2.1 he.2.2 hinv

/-- C3 counterexample: adding the same repo id twice (which the code
accepts without panic) overwrites repoNodes but leaves the stale nodeRepos
entries, so an unrestricted operation sequence reaches a state where the
sharing graph is not symmetric. -/
theorem sharing_symmetry_counterexample :
    Reachable dupModel2 ∧ "r" ∈ dupModel2.nodeRepos 1 ∧ 1 ∉ dupModel2.repoNodes "r" := by
  refine ⟨?_, by decide, by decide⟩
  have h1 : (initModel []).AddRepo ⟨"r", "", [1]⟩ = some dupModel1 := rfl
  have h2 : dupModel1.AddRepo ⟨"r", "", []⟩ = some dupModel2 := rfl
  exact Reachable.step dupModel1 dupModel2
    (Reachable.step (initModel []) dupModel1 (Reachable.init [])
      (Step.addRepo (initModel []) ⟨"r", "", [1]⟩ dupModel1 h1))
    (Step.addRepo dupModel1 ⟨"r", "", []⟩ dupModel2 h2)

/-- C3 (amended): in every state reachable by a sequence of the modelled
operations in which no two AddRepo calls share a repo id, the sharing graph
is symmetric: n is listed in repoNodes[r] exactly when r is listed in
nodeRepos[n]. -/
theorem sharing_symmetry (m : Model) (h : ReachableD m) : SharingSymmetric m := by
  have hinv : GraphInv m := by
    induction h with
    | init cfgNodes =>
      constructor
      · intro r n
        simp [initModel]
      · intro x r hr
        simp [initModel] at hr
    | step m m2 hr hs ih => exact graphInv_stepD m m2 hs ih
  exact hinv.1

/-- C3 witness: the fresh model is reachable under the restriction and its
graph is symmetric at a concrete repo and node. -/
theorem sharing_symmetry_witness :
    ReachableD (initModel []) ∧
    (0 ∈ (initModel []).repoNodes "a" ↔ "a" ∈ (initModel []).nodeRepos 0) := by
  exact ⟨ReachableD.init [], sharing_symmetry (initModel []) (ReachableD.init []) "a" 0⟩

end Syncthing
